import Mathlib

/-!
Verification of the avendish structural field-classification and
port-dispatch engine.

The C++ code inspects an author-defined record type, classifies its fields
by structural shape, builds index maps between the full field list and the
subsequence matching a capability predicate, and drives the per-sample and
message-driven processing loops.  Below, each relevant source entity is
embedded as an executable Lean definition, and the spec properties are
proved about those definitions.
-/

namespace Avnd

/- ---------------------------------------------------------------------
Capability classifier (src/include/avnd/common/struct_reflection.hpp).

A record type is abstracted by its field count `n`; a capability predicate
by `pred : Nat → Bool` giving the result of evaluating the C++ predicate
`P` on the field at each declaration index.  `predicate_introspection`
computes `indices_n` by filtering the index sequence `0, ..., n-1` with
the predicate (`mp_copy_if` over `make_index_sequence`), and stores it as
the constexpr array `index_map`.
--------------------------------------------------------------------- -/

/-- Source `predicate_introspection::index_map`: the declaration indices of the
fields matching the predicate, in declaration order. -/
def index_map (pred : Nat → Bool) (n : Nat) : List Nat :=
  (List.range n).filter pred

/-- Source `predicate_introspection::map<Idx>`: `index_map[Idx]`, the full-record
position of the `Idx`-th matching field. -/
def map (pred : Nat → Bool) (n : Nat) (i : Nat) : Nat :=
  (index_map pred n).getD i 0

/-- Loop body of `avnd::index_of_element` (struct_reflection.hpp lines
22-41): scan the sequence, counting with `k`, and return the count at the
first element equal to `N`; `-1` when `N` does not occur. -/
def index_of_element_loop (N : Nat) (k : Int) : List Nat → Int
  | [] => -1
  | i :: rest => if i = N then k else index_of_element_loop N (k + 1) rest

/-- Source `avnd::index_of_element<N>(seq)`: position of the first occurrence of
`N` in `seq`, or `-1` (the C++ has `static_assert(ret >= 0)`). -/
def index_of_element (N : Nat) (l : List Nat) : Int :=
  index_of_element_loop N 0 l

/-- Source `predicate_introspection::unmap<Idx>`: linear search of `Idx` in
`index_map`, giving the predicate-subset position of a full-record
position. -/
def unmap (pred : Nat → Bool) (n : Nat) (j : Nat) : Int :=
  index_of_element j (index_map pred n)

theorem index_map_pairwise (pred : Nat → Bool) (n : Nat) :
    List.Pairwise (· < ·) (index_map pred n) :=
  List.Pairwise.sublist (List.filter_sublist _) (List.pairwise_lt_range n)

theorem index_map_nodup (pred : Nat → Bool) (n : Nat) :
    (index_map pred n).Nodup :=
  (index_map_pairwise pred n).imp Nat.ne_of_lt

theorem index_of_element_loop_getElem (l : List Nat) (hn : l.Nodup)
    (i : Nat) (hi : i < l.length) (k : Int) :
    index_of_element_loop (l[i]) k l = k + i := by
  induction l generalizing i k with
  | nil => simp at hi
  | cons a t ih =>
    cases i with
    | zero => simp [index_of_element_loop]
    | succ m =>
      have ha : a ∉ t := (List.nodup_cons.mp hn).1
      have hm : m < t.length := by simpa using hi
      have hne : a ≠ t[m] := fun h => ha (h ▸ t.getElem_mem hm)
      simp only [List.getElem_cons_succ, index_of_element_loop, if_neg hne]
      rw [ih (List.nodup_cons.mp hn).2 m hm (k + 1)]
      push_cast
      ring

/-- Claim C1: for every record type (abstracted by its field count `n`)
and every capability predicate `pred`, the index map built by
`predicate_introspection` satisfies `unmap (map i) = i` for every `i`
below the matching count, and its entries are strictly increasing, so
`map` is injective and preserves field declaration order. -/
theorem predicate_introspection_index_map_spec
    (pred : Nat → Bool) (n : Nat) (i : Nat)
    (hi : i < (index_map pred n).length) :
    unmap pred n (map pred n i) = (i : Int) ∧
      ∀ j, j < (index_map pred n).length → i < j →
        map pred n i < map pred n j := by
  constructor
  · unfold unmap map
    rw [List.getD_eq_getElem _ _ hi]
    unfold index_of_element
    rw [index_of_element_loop_getElem _ (index_map_nodup pred n) i hi 0]
    ring
  · intro j hj hij
    unfold map
    rw [List.getD_eq_getElem _ _ hi, List.getD_eq_getElem _ _ hj]
    exact List.pairwise_iff_getElem.mp (index_map_pairwise pred n) i j hi hj hij

/-- Concrete instantiation of the index-map theorem: fields at even
declaration positions of a five-field record (matching indices 0, 2, 4);
the round trip holds at the last matching index 2 as well, and the map
is increasing between positions 0 and 1. -/
theorem predicate_introspection_index_map_spec_witness :
    ((2 : Nat) < (index_map (fun k => k % 2 == 0) 5).length ∧
      (0 : Nat) < (index_map (fun k => k % 2 == 0) 5).length ∧
      (1 : Nat) < (index_map (fun k => k % 2 == 0) 5).length ∧
      (0 : Nat) < 1) ∧
    unmap (fun k => k % 2 == 0) 5 (map (fun k => k % 2 == 0) 5 2) = (2 : Int) ∧
      map (fun k => k % 2 == 0) 5 0 < map (fun k => k % 2 == 0) 5 1 :=
  ⟨⟨by decide, by decide, by decide, by decide⟩,
    (predicate_introspection_index_map_spec (fun k => k % 2 == 0) 5 2
      (by decide)).1,
    (predicate_introspection_index_map_spec (fun k => k % 2 == 0) 5 0
      (by decide)).2 1 (by decide) (by decide)⟩

/- ---------------------------------------------------------------------
Mono single-sample port dispatch adapter
(src/include/avnd/wrappers/input_introspection.hpp, second part,
`process_adapter<T>` for mono_per_sample_port_processor).

Samples are modelled as integers (the identity round trip is exact).
Host memory is a single flat store `mem : Nat → Int`; the per-channel
spans `in` / `out` are base addresses into that store, channel `c`,
frame `i` living at address `base + i`.  This makes host-side aliasing
of input and output spans expressible, which is the point of the
copy-before-write ordering in the source.

`effect_container<T>::full_state()` is not under src/.
Modelled from the spec: "full_state" enumerates the per-channel
processor instances (one Record instance per channel); an instance is
abstracted by its per-sample behaviour `Int → Int` (the composition of
`process_0`: copy the input into the single audio field, run the
callable, read the single output field back).  The write loop advances
a channel counter and the instance iterator together and stops when
either is exhausted.
--------------------------------------------------------------------- -/

/-- One frame `i` of the mono per-sample `process`: first the copy-in
pass fills `input_buf` from every input channel, then for each channel
`c` below both the channel count and the instance count, the processed
sample is written to `out[c][i]`.  Returns the updated store and the
list of `(channel, frame)` output cells written, in write order. -/
def mono_frame (fxs : List (Int → Int)) (inPtrs outPtrs : List Nat)
    (i : Nat) (mem : Nat → Int) : (Nat → Int) × List (Nat × Nat) :=
  let channels := inPtrs.length
  let input_buf : List Int := inPtrs.map fun p => mem (p + i)
  let m := min channels fxs.length
  ((List.range m).foldl
      (fun acc c =>
        fun a =>
          if a = outPtrs.getD c 0 + i then
            (fxs.getD c id) (input_buf.getD c 0)
          else acc a)
      mem,
    (List.range m).map fun c => (c, i))

/-- The mono per-sample `process` entry point: asserts that the input
and output channel counts match (`none` models the failed assertion),
then runs every frame `0, ..., n-1`, accumulating the write log. -/
def mono_process (fxs : List (Int → Int)) (inPtrs outPtrs : List Nat)
    (n : Nat) (mem : Nat → Int) :
    Option ((Nat → Int) × List (Nat × Nat)) :=
  if inPtrs.length = outPtrs.length then
    some ((List.range n).foldl
      (fun acc i =>
        let r := mono_frame fxs inPtrs outPtrs i acc.1
        (r.1, acc.2 ++ r.2))
      (mem, []))
  else none

theorem mono_frame_identity_alias (fxs : List (Int → Int))
    (hfx : ∀ c, c < fxs.length → ∀ x, (fxs.getD c id) x = x)
    (inPtrs : List Nat) (i : Nat) (mem mem0 : Nat → Int)
    (hmem : ∀ a, mem a = mem0 a) :
    ∀ a, (mono_frame fxs inPtrs inPtrs i mem).1 a = mem0 a := by
  unfold mono_frame
  simp only
  -- generalize the foldl over an arbitrary list of channel indices
  have key : ∀ (l : List Nat) (g : Nat → Int),
      (∀ c ∈ l, c < min inPtrs.length fxs.length) →
      (∀ a, g a = mem0 a) →
      ∀ a, (l.foldl
        (fun acc c =>
          fun a =>
            if a = inPtrs.getD c 0 + i then
              (fxs.getD c id) ((inPtrs.map fun p => mem (p + i)).getD c 0)
            else acc a) g) a = mem0 a := by
    intro l
    induction l with
    | nil => intro g _ hg a; simpa using hg a
    | cons c t ih =>
      intro g hl hg a
      have hc : c < min inPtrs.length fxs.length := hl c (List.mem_cons_self c t)
      simp only [List.foldl_cons]
      refine ih _ (fun x hx => hl x (List.mem_cons_of_mem c hx)) ?_ a
      intro b
      by_cases hb : b = inPtrs.getD c 0 + i
      · have hcin : c < inPtrs.length := lt_of_lt_of_le hc (Nat.min_le_left _ _)
        have hcfx : c < fxs.length := lt_of_lt_of_le hc (Nat.min_le_right _ _)
        have hbuf : (inPtrs.map fun p => mem (p + i)).getD c 0
            = mem (inPtrs.getD c 0 + i) := by
          rw [List.getD_eq_getElem _ _ (by simpa using hcin),
            List.getElem_map, List.getD_eq_getElem _ _ hcin]
        rw [if_pos hb, hbuf, hfx c hcfx, hmem, hb]
      · simp only [if_neg hb]
        exact hg b
  intro a
  exact key (List.range (min inPtrs.length fxs.length)) mem
    (fun c hc => List.mem_range.mp hc) hmem a

theorem mono_process_identity_alias (fxs : List (Int → Int)) (inPtrs : List Nat)
    (n : Nat) (mem : Nat → Int)
    (hfx : ∀ c, c < fxs.length → ∀ x, (fxs.getD c id) x = x) :
    ∀ a, ((mono_process fxs inPtrs inPtrs n mem).getD (mem, [])).1 a = mem a := by
  unfold mono_process
  rw [if_pos rfl]
  simp only [Option.getD_some]
  have key : ∀ (l : List Nat) (acc : (Nat → Int) × List (Nat × Nat)),
      (∀ a, acc.1 a = mem a) →
      ∀ a, (l.foldl
        (fun acc i =>
          let r := mono_frame fxs inPtrs inPtrs i acc.1
          (r.1, acc.2 ++ r.2)) acc).1 a = mem a := by
    intro l
    induction l with
    | nil => intro acc hacc a; simpa using hacc a
    | cons i t ih =>
      intro acc hacc a
      simp only [List.foldl_cons]
      exact ih
        ((mono_frame fxs inPtrs inPtrs i acc.1).1,
          acc.2 ++ (mono_frame fxs inPtrs inPtrs i acc.1).2)
        (fun b => mono_frame_identity_alias fxs hfx inPtrs i acc.1 mem hacc b) a
  intro a
  exact key (List.range n) (mem, []) (fun _ => rfl) a

/-- The concrete host store of the round-trip test: channel 0 holds
samples `1, 2, 3, 4` at addresses `0..3`, channel 1 holds `5, 6, 7, 8`
at addresses `4..7`. -/
def mono_mem_spec : Nat → Int := fun a =>
  [1, 2, 3, 4, 5, 6, 7, 8].getD a 0

/-- Claim C2: in the mono single-sample protocol all input samples of a
frame are buffered before any output sample of that frame is written, so
with an identity processing operation the output equals the input per
channel and per frame even when the output spans alias the input spans:
running any number of identity instances over fully aliased spans leaves
the whole store unchanged. -/
theorem mono_process_copy_before_write (fxs : List (Int → Int))
    (inPtrs : List Nat) (n : Nat) (mem : Nat → Int)
    (hfx : ∀ c, c < fxs.length → ∀ x, (fxs.getD c id) x = x) :
    ∀ c, c < inPtrs.length → ∀ i, i < n →
      ((mono_process fxs inPtrs inPtrs n mem).getD (mem, [])).1
          (inPtrs.getD c 0 + i)
        = mem (inPtrs.getD c 0 + i) :=
  fun _ _ _ _ => mono_process_identity_alias fxs inPtrs n mem hfx _

/-- The round trip of the spec: `channels = 2`, `n = 4`, input samples
`[[1,2,3,4],[5,6,7,8]]`, identity processing, output spans aliasing the
input spans; every output sample equals the corresponding input
sample. -/
theorem mono_process_copy_before_write_witness :
    ((0 : Nat) < [0, 4].length ∧ (1 : Nat) < [0, 4].length ∧
      (0 : Nat) < 4 ∧ (3 : Nat) < 4) ∧
    (((mono_process [fun x => x, fun x => x] [0, 4] [0, 4] 4 mono_mem_spec).getD
        (mono_mem_spec, [])).1 ([0, 4].getD 0 0 + 0)
      = mono_mem_spec ([0, 4].getD 0 0 + 0) ∧
     ((mono_process [fun x => x, fun x => x] [0, 4] [0, 4] 4 mono_mem_spec).getD
        (mono_mem_spec, [])).1 ([0, 4].getD 1 0 + 3)
      = mono_mem_spec ([0, 4].getD 1 0 + 3)) := by
  have hfx : ∀ c, c < ([fun x => x, fun x => x] : List (Int → Int)).length →
      ∀ x, (([fun x => x, fun x => x] : List (Int → Int)).getD c id) x = x := by
    intro c hc x
    match c with
    | 0 => rfl
    | 1 => rfl
    | m + 2 => simp at hc
  exact ⟨⟨by decide, by decide, by decide, by decide⟩,
    mono_process_copy_before_write _ [0, 4] 4 mono_mem_spec hfx 0 (by decide) 0
      (by decide),
    mono_process_copy_before_write _ [0, 4] 4 mono_mem_spec hfx 1 (by decide) 3
      (by decide)⟩

/-- Claim C4: the mono per-sample `process` asserts that the input and
output channel counts match; under that precondition the assertion holds
and the error branch is unreachable, and a mismatch is the asserted
fatal precondition violation, never a recoverable result. -/
theorem mono_process_channel_count_assertion
    (fxs : List (Int → Int)) (inPtrs outPtrs : List Nat)
    (n : Nat) (mem : Nat → Int) :
    (mono_process fxs inPtrs outPtrs n mem).isSome
      ↔ inPtrs.length = outPtrs.length := by
  unfold mono_process
  by_cases h : inPtrs.length = outPtrs.length
  · simp [h]
  · simp [h]

theorem mono_frame_writes_bounded (fxs : List (Int → Int))
    (inPtrs outPtrs : List Nat) (i : Nat) (mem : Nat → Int) :
    ∀ w ∈ (mono_frame fxs inPtrs outPtrs i mem).2, w.1 < fxs.length := by
  intro w hw
  unfold mono_frame at hw
  simp only [List.mem_map, List.mem_range] at hw
  obtain ⟨c, hc, rfl⟩ := hw
  exact lt_of_lt_of_le hc (Nat.min_le_right _ _)

/-- Claim C5: in the mono single-sample protocol, when fewer per-channel
processor instances are available than channels, the remaining channels
are never written (no `(c, i)` with `c` at or beyond the instance count
ever enters the write log) and the mismatch is not reported as an
error. -/
theorem mono_process_missing_instances_silent
    (fxs : List (Int → Int)) (inPtrs outPtrs : List Nat)
    (n : Nat) (mem : Nat → Int)
    (hch : inPtrs.length = outPtrs.length) :
    (mono_process fxs inPtrs outPtrs n mem).isSome ∧
      ∀ c i, fxs.length ≤ c →
        (c, i) ∉ ((mono_process fxs inPtrs outPtrs n mem).getD (mem, [])).2 := by
  constructor
  · unfold mono_process
    rw [if_pos hch]
    rfl
  · intro c i hc hmem
    unfold mono_process at hmem
    rw [if_pos hch] at hmem
    simp only [Option.getD_some] at hmem
    -- every element of the accumulated write log has channel < fxs.length
    have key : ∀ (l : List Nat) (acc : (Nat → Int) × List (Nat × Nat)),
        (∀ w ∈ acc.2, w.1 < fxs.length) →
        ∀ w ∈ (l.foldl
          (fun acc i =>
            let r := mono_frame fxs inPtrs outPtrs i acc.1
            (r.1, acc.2 ++ r.2)) acc).2, w.1 < fxs.length := by
      intro l
      induction l with
      | nil => intro acc hacc w hw; exact hacc w hw
      | cons j t ih =>
        intro acc hacc w hw
        simp only [List.foldl_cons] at hw
        refine ih
          ((mono_frame fxs inPtrs outPtrs j acc.1).1,
            acc.2 ++ (mono_frame fxs inPtrs outPtrs j acc.1).2) ?_ w hw
        intro v hv
        rcases List.mem_append.mp hv with h | h
        · exact hacc v h
        · exact mono_frame_writes_bounded fxs inPtrs outPtrs j acc.1 v h
    have := key (List.range n) (mem, []) (by intro w hw; simp at hw) (c, i) hmem
    omega

/-- Concrete instantiation: two channels, one identity instance; the
call succeeds and channel 1 is never written. -/
theorem mono_process_missing_instances_silent_witness :
    ([0, 4].length = [0, 4].length ∧ (1 : Nat) ≤ 1) ∧
    ((mono_process [fun x => x] [0, 4] [0, 4] 4 mono_mem_spec).isSome ∧
      (1, 2) ∉ ((mono_process [fun x => x] [0, 4] [0, 4] 4 mono_mem_spec).getD
        (mono_mem_spec, [])).2) := by
  refine ⟨⟨rfl, le_refl 1⟩, ?_, ?_⟩
  · exact (mono_process_missing_instances_silent [fun x => x] [0, 4] [0, 4] 4
      mono_mem_spec rfl).1
  · exact (mono_process_missing_instances_silent [fun x => x] [0, 4] [0, 4] 4
      mono_mem_spec rfl).2 1 2 (le_refl 1)

/- ---------------------------------------------------------------------
Poly per-sample port dispatch adapter
(src/include/avnd/wrappers/input_introspection.hpp, second part,
`process_adapter<T>` for poly_per_sample_port_processor).

The input and output sub-records are modelled as lists of fields in
declaration order; a field is audio-sample shaped
(`avnd::generic_audio_sample_port`, it has a `.sample` member) or not.
Host channel buffers are `Nat → Nat → Int` (channel, frame ↦ sample)
together with a channel count (the span size).  The shared processing
callable mutates the input and output records; it is abstracted as a
function from both records to both records, applied exactly where the
source invokes `process_sample`.
--------------------------------------------------------------------- -/

/-- One field of a poly per-sample record: whether it is audio-sample
shaped, and its current sample value. -/
structure PolyField where
  audio : Bool
  val : Int
deriving DecidableEq

/-- Copy-in loop of the poly per-sample `process`: iterate the input
fields in declaration order with a channel counter `k`; an audio-sample
field receives `in[k][i]` and advances `k` when `k` is below the input
channel count, every other field is untouched. -/
def poly_copy_in (inBuf : Nat → Nat → Int) (inChans : Nat) (i : Nat) :
    Nat → List PolyField → List PolyField
  | _, [] => []
  | k, f :: fs =>
    if f.audio then
      if k < inChans then
        { f with val := inBuf k i } :: poly_copy_in inBuf inChans i (k + 1) fs
      else
        f :: poly_copy_in inBuf inChans i k fs
    else
      f :: poly_copy_in inBuf inChans i k fs

/-- Copy-out loop of the poly per-sample `process`: iterate the output
fields in declaration order with a channel counter `k`; an audio-sample
field writes its value to `out[k][i]` and advances `k` when `k` is below
the output channel count. -/
def poly_copy_out (outChans : Nat) (i : Nat) :
    Nat → List PolyField → (Nat → Nat → Int) → Nat → Nat → Int
  | _, [], buf => buf
  | k, f :: fs, buf =>
    if f.audio then
      if k < outChans then
        poly_copy_out outChans i (k + 1) fs
          (fun c j => if c = k ∧ j = i then f.val else buf c j)
      else
        poly_copy_out outChans i k fs buf
    else
      poly_copy_out outChans i k fs buf

/-- State threaded through the poly per-sample loop: the single shared
record instance (input and output fields), the host output store, and
the number of invocations of the processing operation so far. -/
structure PolyState where
  ins : List PolyField
  outs : List PolyField
  outBuf : Nat → Nat → Int
  calls : Nat

/-- One frame of the poly per-sample `process`: copy the input channels
into the audio input fields, invoke the processing operation exactly
once, copy the audio output fields to the output channels. -/
def poly_process_frame
    (fx : List PolyField → List PolyField → List PolyField × List PolyField)
    (inBuf : Nat → Nat → Int) (inChans outChans : Nat)
    (i : Nat) (st : PolyState) : PolyState :=
  let ins1 := poly_copy_in inBuf inChans i 0 st.ins
  let r := fx ins1 st.outs
  { ins := r.1
    outs := r.2
    outBuf := poly_copy_out outChans i 0 r.2 st.outBuf
    calls := st.calls + 1 }

/-- The poly per-sample `process` entry point: run every frame
`0, ..., n-1` on the single shared record instance. -/
def poly_process
    (fx : List PolyField → List PolyField → List PolyField × List PolyField)
    (inBuf : Nat → Nat → Int) (inChans outChans : Nat)
    (n : Nat) (st : PolyState) : PolyState :=
  (List.range n).foldl
    (fun s i => poly_process_frame fx inBuf inChans outChans i s) st

/-- Number of audio-sample shaped fields strictly before declaration
position `p`: the channel the field at `p` is paired with. -/
def audio_rank (fs : List PolyField) (p : Nat) : Nat :=
  (fs.take p).countP (·.audio)

/-- Number of audio-sample shaped fields of a record. -/
def audio_count (fs : List PolyField) : Nat :=
  fs.countP (·.audio)

/-- The values of the audio-sample shaped fields, in declaration
order. -/
def audio_vals (fs : List PolyField) : List Int :=
  (fs.filter (·.audio)).map (·.val)

theorem poly_copy_in_length (inBuf : Nat → Nat → Int) (inChans i : Nat)
    (k : Nat) (fs : List PolyField) :
    (poly_copy_in inBuf inChans i k fs).length = fs.length := by
  induction fs generalizing k with
  | nil => rfl
  | cons f t ih =>
    by_cases hf : f.audio
    · by_cases hk : k < inChans
      · simp [poly_copy_in, hf, hk, ih]
      · simp [poly_copy_in, hf, hk, ih]
    · simp [poly_copy_in, hf, ih]

theorem poly_copy_in_getElem (inBuf : Nat → Nat → Int) (inChans i : Nat)
    (k : Nat) (fs : List PolyField) (p : Nat) (hp : p < fs.length) :
    (poly_copy_in inBuf inChans i k fs).getD p ⟨false, 0⟩
      = if (fs.getD p ⟨false, 0⟩).audio ∧ k + audio_rank fs p < inChans
        then { fs.getD p ⟨false, 0⟩ with val := inBuf (k + audio_rank fs p) i }
        else fs.getD p ⟨false, 0⟩ := by
  induction fs generalizing k p with
  | nil => simp at hp
  | cons f t ih =>
    cases p with
    | zero =>
      simp only [audio_rank, List.take_zero, List.countP_nil, Nat.add_zero,
        List.getD_cons_zero]
      by_cases hf : f.audio
      · by_cases hk : k < inChans
        · simp [poly_copy_in, hf, hk]
        · simp [poly_copy_in, hf, hk]
      · simp [poly_copy_in, hf]
    | succ m =>
      have hm : m < t.length := by simpa using hp
      have hrank : audio_rank (f :: t) (m + 1)
          = (if f.audio then 1 else 0) + audio_rank t m := by
        simp only [audio_rank, List.take_succ_cons, List.countP_cons]
        by_cases hf : f.audio
        · simp [hf]
          omega
        · simp [hf]
      by_cases hf : f.audio
      · by_cases hk : k < inChans
        · simp only [poly_copy_in, if_pos hf, if_pos hk, List.getD_cons_succ,
            hrank, if_pos hf]
          rw [ih (k + 1) m hm]
          have : k + 1 + audio_rank t m = k + (1 + audio_rank t m) := by omega
          simp [hf, this]
        · simp only [poly_copy_in, if_pos hf, if_neg hk, List.getD_cons_succ,
            hrank, if_pos hf]
          rw [ih k m hm]
          have h1 : ¬(k + audio_rank t m < inChans) := by omega
          have h2 : ¬(k + (1 + audio_rank t m) < inChans) := by omega
          simp [h1, h2]
      · simp only [poly_copy_in, if_neg hf, List.getD_cons_succ, hrank,
          if_neg hf]
        rw [ih k m hm]
        simp

theorem poly_copy_out_char (outChans i : Nat) (fs : List PolyField)
    (k : Nat) (buf : Nat → Nat → Int) (c j : Nat) :
    poly_copy_out outChans i k fs buf c j
      = if c < outChans ∧ k ≤ c ∧ c - k < audio_count fs ∧ j = i
        then (audio_vals fs).getD (c - k) 0
        else buf c j := by
  induction fs generalizing k buf with
  | nil =>
    simp [poly_copy_out, audio_count, audio_vals]
  | cons f t ih =>
    by_cases hf : f.audio
    · have hcount : audio_count (f :: t) = audio_count t + 1 := by
        simp [audio_count, List.countP_cons, hf]
      have hvals : audio_vals (f :: t) = f.val :: audio_vals t := by
        simp [audio_vals, hf]
      by_cases hk : k < outChans
      · simp only [poly_copy_out, if_pos hf, if_pos hk]
        rw [ih (k + 1)]
        rcases Nat.lt_trichotomy c k with hc | hc | hc
        · have h1 : ¬(k + 1 ≤ c) := by omega
          have h2 : ¬(k ≤ c) := by omega
          simp [h1, h2, hc, Nat.ne_of_lt hc]
        · subst hc
          have h1 : ¬(c + 1 ≤ c) := by omega
          by_cases hj : j = i
          · have h2 : c < outChans ∧ c ≤ c ∧ c - c < audio_count (f :: t) ∧ j = i := by
              refine ⟨hk, le_refl c, ?_, hj⟩
              omega
            simp [h1, hj, h2, hcount, hvals, hk]
          · simp [h1, hj, hk]
        · have h1 : k + 1 ≤ c := hc
          have h2 : k ≤ c := by omega
          have hcc : c ≠ k := by omega
          have hsub : c - k = (c - (k + 1)) + 1 := by omega
          by_cases hrest : c < outChans ∧ c - (k + 1) < audio_count t ∧ j = i
          · have hL : c < outChans ∧ k + 1 ≤ c ∧ c - (k + 1) < audio_count t ∧ j = i :=
              ⟨hrest.1, h1, hrest.2.1, hrest.2.2⟩
            have hR : c < outChans ∧ k ≤ c ∧ c - k < audio_count (f :: t) ∧ j = i := by
              refine ⟨hrest.1, h2, ?_, hrest.2.2⟩
              rw [hcount]
              omega
            rw [if_pos hL, if_pos hR, hvals, hsub, List.getD_cons_succ]
          · have hL : ¬(c < outChans ∧ k + 1 ≤ c ∧ c - (k + 1) < audio_count t ∧ j = i) := by
              intro hx
              exact hrest ⟨hx.1, hx.2.2.1, hx.2.2.2⟩
            have hR : ¬(c < outChans ∧ k ≤ c ∧ c - k < audio_count (f :: t) ∧ j = i) := by
              intro hx
              refine hrest ⟨hx.1, ?_, hx.2.2.2⟩
              have := hx.2.2.1
              rw [hcount] at this
              omega
            rw [if_neg hL, if_neg hR]
            simp [hcc]
      · simp only [poly_copy_out, if_pos hf, if_neg hk]
        rw [ih k]
        have hL : ¬(c < outChans ∧ k ≤ c ∧ c - k < audio_count t ∧ j = i) := by
          intro hx
          omega
        have hR : ¬(c < outChans ∧ k ≤ c ∧ c - k < audio_count (f :: t) ∧ j = i) := by
          intro hx
          omega
        simp [hL, hR]
    · have hcount : audio_count (f :: t) = audio_count t := by
        simp [audio_count, List.countP_cons, hf]
      have hvals : audio_vals (f :: t) = audio_vals t := by
        simp [audio_vals, hf]
      simp only [poly_copy_out, if_neg hf]
      rw [ih k, hcount, hvals]

theorem poly_process_foldl_calls
    (fx : List PolyField → List PolyField → List PolyField × List PolyField)
    (inBuf : Nat → Nat → Int) (inChans outChans : Nat)
    (l : List Nat) (st : PolyState) :
    (l.foldl (fun s i => poly_process_frame fx inBuf inChans outChans i s)
        st).calls = st.calls + l.length := by
  induction l generalizing st with
  | nil => simp
  | cons i t ih =>
    simp only [List.foldl_cons, List.length_cons, ih]
    simp [poly_process_frame]
    omega

/-- Claim C3: in the poly per-sample protocol, per frame `i` input
channel `k` is copied into the `k`-th audio-sample shaped input field in
declaration order (non-audio fields are skipped and untouched, channels
beyond the audio field count and audio fields beyond the channel count
are ignored), the processing operation runs exactly once per frame, and
the `k`-th audio-sample shaped output field is copied back to output
channel `k` (channels beyond the audio output field count are left
unchanged). -/
theorem poly_process_frame_spec
    (fx : List PolyField → List PolyField → List PolyField × List PolyField)
    (inBuf : Nat → Nat → Int) (inChans outChans : Nat)
    (i n : Nat) (st : PolyState) (p : Nat) (hp : p < st.ins.length) :
    ((poly_copy_in inBuf inChans i 0 st.ins).getD p ⟨false, 0⟩
        = if (st.ins.getD p ⟨false, 0⟩).audio ∧ audio_rank st.ins p < inChans
          then { st.ins.getD p ⟨false, 0⟩ with
                  val := inBuf (audio_rank st.ins p) i }
          else st.ins.getD p ⟨false, 0⟩) ∧
    (poly_process_frame fx inBuf inChans outChans i st).calls
        = st.calls + 1 ∧
    (∀ c j, (poly_process_frame fx inBuf inChans outChans i st).outBuf c j
        = if c < outChans ∧
            c < audio_count (poly_process_frame fx inBuf inChans outChans i st).outs ∧
            j = i
          then (audio_vals
              (poly_process_frame fx inBuf inChans outChans i st).outs).getD c 0
          else st.outBuf c j) ∧
    (poly_process fx inBuf inChans outChans n st).calls = st.calls + n := by
  refine ⟨?_, rfl, ?_, ?_⟩
  · have h := poly_copy_in_getElem inBuf inChans i 0 st.ins p hp
    simpa using h
  · intro c j
    have h := poly_copy_out_char outChans i
      (fx (poly_copy_in inBuf inChans i 0 st.ins) st.outs).2 0 st.outBuf c j
    simp only [Nat.sub_zero, Nat.zero_le, true_and] at h
    exact h
  · have h := poly_process_foldl_calls fx inBuf inChans outChans
      (List.range n) st
    simpa using h

/-- Concrete poly record of the spec instance: three audio-sample input
fields (with a non-audio control field interleaved) and two audio-sample
output fields. -/
def poly_ins_spec : List PolyField :=
  [⟨true, 1⟩, ⟨false, 2⟩, ⟨true, 3⟩, ⟨true, 4⟩]

def poly_outs_spec : List PolyField :=
  [⟨true, 10⟩, ⟨true, 11⟩]

def poly_st_spec : PolyState :=
  ⟨poly_ins_spec, poly_outs_spec, fun _ _ => 0, 0⟩

def poly_inBuf_spec : Nat → Nat → Int :=
  fun c j => Int.ofNat (100 * c + j)

/-- Concrete instantiation: four input channels against three audio
input fields, three output channels against two audio output fields,
the processing operation leaving the records unchanged; at frame 7 the
second audio input field (declaration position 2) receives channel 1,
one invocation happens per frame, output channel 1 receives the second
audio output field and output channel 2 is untouched. -/
theorem poly_process_frame_spec_witness :
    ((2 : Nat) < poly_st_spec.ins.length) ∧
    (poly_copy_in poly_inBuf_spec 4 7 0 poly_st_spec.ins).getD 2 ⟨false, 0⟩
        = ⟨true, 107⟩ ∧
    (poly_process_frame (fun a b => (a, b)) poly_inBuf_spec 4 3 7
        poly_st_spec).calls = 1 ∧
    (poly_process_frame (fun a b => (a, b)) poly_inBuf_spec 4 3 7
        poly_st_spec).outBuf 1 7 = 11 ∧
    (poly_process_frame (fun a b => (a, b)) poly_inBuf_spec 4 3 7
        poly_st_spec).outBuf 2 7 = 0 ∧
    (poly_process (fun a b => (a, b)) poly_inBuf_spec 4 3 5
        poly_st_spec).calls = 5 := by
  refine ⟨by decide, ?_, ?_, ?_, ?_, ?_⟩
  · exact (poly_process_frame_spec (fun a b => (a, b)) poly_inBuf_spec 4 3 7 5
      poly_st_spec 2 (by decide)).1
  · exact (poly_process_frame_spec (fun a b => (a, b)) poly_inBuf_spec 4 3 7 5
      poly_st_spec 2 (by decide)).2.1
  · exact (poly_process_frame_spec (fun a b => (a, b)) poly_inBuf_spec 4 3 7 5
      poly_st_spec 2 (by decide)).2.2.1 1 7
  · exact (poly_process_frame_spec (fun a b => (a, b)) poly_inBuf_spec 4 3 7 5
      poly_st_spec 2 (by decide)).2.2.1 2 7
  · exact (poly_process_frame_spec (fun a b => (a, b)) poly_inBuf_spec 4 3 7 5
      poly_st_spec 2 (by decide)).2.2.2

end Avnd

namespace Pd

/- ---------------------------------------------------------------------
Message/control router (src/src/pd/message_processor.hpp).

A Pd atom is a float (numbers modelled as integers; only which shapes
are routed matters here) or a symbol; other atom kinds fall into the
`default` branch of the switch and are ignored.  The first field of the
input sub-record is modelled by its value shape: numeric, string-like,
or any other shape; `none` models a record without inputs
(`avnd::has_inputs<T>` false).

The processing operation (`implementation()`) is abstracted as a
transition `op` on the implementation state, applied only when the
record defines one (`hasOp`, from `if_possible`).

Modelled from the spec: `messages_setup.process_messages` (pd/messages.hpp
is not under src/) matches the event name against the handlers the author
declared explicitly and, on a match, invokes that handler with the event
argument list and reports `true`; `output_setup.commit` (pd/outputs.hpp)
drains the output fields to the host outlets, an effect recorded here as
a `committed` trace event; `process_generic_message` (pd/helpers.hpp)
is the generic fallback, recorded as a `genericMessage` trace event.
--------------------------------------------------------------------- -/

/-- A Pd message atom: float, symbol, or any other atom kind (the
`default` branch of the `a_type` switch). -/
inductive PdAtom where
  | afloat (x : Int)
  | asym (s : String)
  | aother
deriving DecidableEq

/-- The value shape of the first input field: numeric
(`first_inlet.value = 0.f` compiles), string-like
(`first_inlet.value = "string"` compiles), or any other shape. -/
inductive FieldVal where
  | num (x : Int)
  | str (s : String)
  | blob
deriving DecidableEq

/-- The modelled implementation state: the first input field value
(`none` when the record has no inputs) and whether the record defines a
processing operation. -/
structure PdImpl where
  firstField : Option FieldVal
  hasOp : Bool
deriving DecidableEq

/-- Host-visible effects of one `process` call, in order. -/
inductive PdEvent where
  | handled (name : String) (args : List PdAtom)
  | opInvoked
  | committed
  | genericMessage (name : String)
deriving DecidableEq

/-- Source `message_processor::process_first_inlet_control`: switch on the
type of argument 0; a float is assigned into a numeric-valued first
field, a symbol name into a string-valued first field, every other
combination leaves the field untouched; without inputs nothing
happens. -/
def process_first_inlet_control (args : List PdAtom)
    (f : Option FieldVal) : Option FieldVal :=
  match f with
  | none => none
  | some fv =>
    match args with
    | [] => some fv
    | a :: _ =>
      match a, fv with
      | .afloat x, .num _ => some (.num x)
      | .asym s, .str _ => some (.str s)
      | _, _ => some fv

/-- Source `message_processor::process`: first give the explicitly declared
handlers a chance (returning at once when one matched), then the
default behaviour: a zero-argument `"bang"` invokes the processing
operation if the record defines one and commits the outputs, any other
zero-argument event runs the generic fallback, and an event with
arguments routes argument 0 into the first inlet, invokes the
processing operation if defined, and commits the outputs. -/
def process
    (handlers : String → Option (List PdAtom → PdImpl → PdImpl))
    (op : PdImpl → PdImpl)
    (name : String) (args : List PdAtom) (impl : PdImpl) :
    PdImpl × List PdEvent :=
  match handlers name with
  | some h => (h args impl, [.handled name args])
  | none =>
    match args with
    | [] =>
      if name = "bang" then
        ((if impl.hasOp then op impl else impl),
          (if impl.hasOp then [PdEvent.opInvoked] else []) ++ [.committed])
      else
        (impl, [.genericMessage name])
    | _ :: _ =>
      let impl1 : PdImpl :=
        { impl with firstField := process_first_inlet_control args impl.firstField }
      ((if impl1.hasOp then op impl1 else impl1),
        (if impl1.hasOp then [PdEvent.opInvoked] else []) ++ [.committed])

/-- Claim C6: when the event name matches a handler the author declared
explicitly for that name, that handler is invoked with the event
argument list and processing stops: no first-inlet assignment, no
processing-operation invocation, no output commit and no generic
fallback runs for that event. -/
theorem process_matched_handler_stops
    (handlers : String → Option (List PdAtom → PdImpl → PdImpl))
    (op : PdImpl → PdImpl) (name : String) (args : List PdAtom)
    (impl : PdImpl) (h : List PdAtom → PdImpl → PdImpl)
    (hh : handlers name = some h) :
    process handlers op name args impl = (h args impl, [.handled name args]) := by
  unfold process
  rw [hh]

/-- The explicit handler of the concrete router instance: declared for
the name `"reset"`, it clears the first field. -/
def reset_handler : List PdAtom → PdImpl → PdImpl :=
  fun _ impl => { impl with firstField := some (.num 0) }

/-- The declared-handler table of the concrete router instance. -/
def handlers_spec : String → Option (List PdAtom → PdImpl → PdImpl) :=
  fun n => if n = "reset" then some reset_handler else none

/-- Concrete instantiation: a handler declared for `"reset"` receives
the argument list and nothing else runs. -/
theorem process_matched_handler_stops_witness :
    handlers_spec "reset" = some reset_handler ∧
    process handlers_spec id "reset" [.afloat 3] ⟨some (.num 7), true⟩
      = (⟨some (.num 0), true⟩, [.handled "reset" [.afloat 3]]) :=
  ⟨rfl,
    process_matched_handler_stops handlers_spec id "reset" [.afloat 3]
      ⟨some (.num 7), true⟩ reset_handler rfl⟩

/-- Claim C7: with no matching explicit handler, a zero-argument event
named `"bang"` invokes the processing operation when the record defines
one and then commits the outputs; a zero-argument event with any other
name invokes neither the processing operation nor a commit and runs the
generic fallback instead. -/
theorem process_bang_default
    (handlers : String → Option (List PdAtom → PdImpl → PdImpl))
    (op : PdImpl → PdImpl) (name : String) (impl : PdImpl)
    (hh : handlers name = none) :
    (name = "bang" →
      process handlers op name [] impl
        = ((if impl.hasOp then op impl else impl),
            (if impl.hasOp then [PdEvent.opInvoked] else [])
              ++ [.committed])) ∧
    (name ≠ "bang" →
      process handlers op name [] impl = (impl, [.genericMessage name]) ∧
      PdEvent.opInvoked ∉ (process handlers op name [] impl).2 ∧
      PdEvent.committed ∉ (process handlers op name [] impl).2) := by
  constructor
  · intro hb
    unfold process
    rw [hh]
    simp [hb]
  · intro hb
    unfold process
    rw [hh]
    simp [hb]

/-- Concrete instantiation: with the `"reset"`-only handler table, a
bare `"bang"` on a record with a processing operation runs it and
commits, while a bare `"list"` only runs the generic fallback. -/
theorem process_bang_default_witness :
    (handlers_spec "bang" = none ∧ handlers_spec "list" = none ∧
      "bang" = "bang" ∧ "list" ≠ "bang") ∧
    process handlers_spec id "bang" [] ⟨some (.num 7), true⟩
      = (⟨some (.num 7), true⟩, [.opInvoked, .committed]) ∧
    process handlers_spec id "list" [] ⟨some (.num 7), true⟩
      = (⟨some (.num 7), true⟩, [.genericMessage "list"]) :=
  ⟨⟨rfl, rfl, rfl, by decide⟩,
    (process_bang_default handlers_spec id "bang" ⟨some (.num 7), true⟩
      rfl).1 rfl,
    ((process_bang_default handlers_spec id "list" ⟨some (.num 7), true⟩
      rfl).2 (by decide)).1⟩

/-- Claim C10: two `process` calls from the same state whose events both
carry the same non-empty argument list and whose names both fail to
match a declared handler produce the same implementation state and the
same host-visible effects: in default mode with arguments present the
event name has no influence on the outcome. -/
theorem process_default_name_irrelevant
    (handlers : String → Option (List PdAtom → PdImpl → PdImpl))
    (op : PdImpl → PdImpl) (n1 n2 : String) (a : PdAtom)
    (rest : List PdAtom) (impl : PdImpl)
    (h1 : handlers n1 = none) (h2 : handlers n2 = none) :
    process handlers op n1 (a :: rest) impl
      = process handlers op n2 (a :: rest) impl := by
  unfold process
  rw [h1, h2]

/-- Concrete instantiation: `"foo" 5` and `"bar" 5` give identical
results under the `"reset"`-only handler table. -/
theorem process_default_name_irrelevant_witness :
    (handlers_spec "foo" = none ∧ handlers_spec "bar" = none) ∧
    process handlers_spec id "foo" [.afloat 5] ⟨some (.num 7), true⟩
      = process handlers_spec id "bar" [.afloat 5] ⟨some (.num 7), true⟩ :=
  ⟨⟨rfl, rfl⟩,
    process_default_name_irrelevant handlers_spec id "foo" "bar" (.afloat 5)
      [] ⟨some (.num 7), true⟩ rfl rfl⟩

end Pd

namespace Oscr

/- ---------------------------------------------------------------------
Value marshaller (src/include/avnd/binding/ossia/port_run_preprocess.hpp,
the from_ossia_value overload set).

The host value type is an abstract `V`; the `ossia::convert` calls are
external library collaborators, abstracted as a bundle of conversion
functions.  The field value is modelled by its shape tag, mirroring the
shapes the overload set dispatches on: aggregate of 0 fields (impulse),
aggregates of 2, 3 and 4 numeric fields, integral scalar, floating
scalar, string-like, boolean.  Numeric payloads are carried as integers;
only which shapes are converted and assigned matters here.  The
three-argument entry point dispatches on the field: the
`enum_ish_parameter` overload has an empty body (the FIXME in the
source), every other field forwards to the shape-dispatched
conversion. -/

/-- The external `ossia::convert` family, abstracted. -/
structure OssiaConv (V : Type) where
  toVec2 : V → Int × Int
  toVec3 : V → Int × Int × Int
  toVec4 : V → Int × Int × Int × Int
  toIntV : V → Int
  toFloatV : V → Int
  toStrV : V → String
  toBoolV : V → Bool

/-- The value of a field, tagged by the shape the overload set
dispatches on. -/
inductive FieldValue where
  | impulse
  | vec2 (x y : Int)
  | vec3 (x y z : Int)
  | vec4 (x y z w : Int)
  | intVal (x : Int)
  | floatVal (x : Int)
  | strVal (s : String)
  | boolVal (b : Bool)
deriving DecidableEq

/-- The three-argument `from_ossia_value(field, src, dst)`: a field
classified `enum_ish_parameter` selects the overload with the empty
body, leaving `dst` untouched; every other field forwards to the
shape-dispatched two-argument overloads, which convert `src` by the
shape of `dst` and assign (the zero-field impulse case has nothing to
assign). -/
def from_ossia_value {V : Type} (cv : OssiaConv V) (enumIsh : Bool)
    (src : V) (dst : FieldValue) : FieldValue :=
  if enumIsh then dst
  else
    match dst with
    | .impulse => .impulse
    | .vec2 _ _ => .vec2 (cv.toVec2 src).1 (cv.toVec2 src).2
    | .vec3 _ _ _ =>
        .vec3 (cv.toVec3 src).1 (cv.toVec3 src).2.1 (cv.toVec3 src).2.2
    | .vec4 _ _ _ _ =>
        .vec4 (cv.toVec4 src).1 (cv.toVec4 src).2.1 (cv.toVec4 src).2.2.1
          (cv.toVec4 src).2.2.2
    | .intVal _ => .intVal (cv.toIntV src)
    | .floatVal _ => .floatVal (cv.toFloatV src)
    | .strVal _ => .strVal (cv.toStrV src)
    | .boolVal _ => .boolVal (cv.toBoolV src)

/-- Claim C9: marshalling a host value into an enumeration-like /
ranged field is a silent drop leaving the field value completely
unchanged, while every non-enumeration shape is converted and assigned:
the impulse no-op aside, the result is determined by the converted host
value alone, independent of the previous field value. -/
theorem from_ossia_value_enum_ish_drop {V : Type} (cv : OssiaConv V)
    (src : V) (dst : FieldValue) :
    from_ossia_value cv true src dst = dst ∧
    from_ossia_value cv false src .impulse = .impulse ∧
    (∀ x y, from_ossia_value cv false src (.vec2 x y)
        = .vec2 (cv.toVec2 src).1 (cv.toVec2 src).2) ∧
    (∀ x y z, from_ossia_value cv false src (.vec3 x y z)
        = .vec3 (cv.toVec3 src).1 (cv.toVec3 src).2.1 (cv.toVec3 src).2.2) ∧
    (∀ x y z w, from_ossia_value cv false src (.vec4 x y z w)
        = .vec4 (cv.toVec4 src).1 (cv.toVec4 src).2.1 (cv.toVec4 src).2.2.1
            (cv.toVec4 src).2.2.2) ∧
    (∀ x, from_ossia_value cv false src (.intVal x) = .intVal (cv.toIntV src)) ∧
    (∀ x, from_ossia_value cv false src (.floatVal x)
        = .floatVal (cv.toFloatV src)) ∧
    (∀ s, from_ossia_value cv false src (.strVal s) = .strVal (cv.toStrV src)) ∧
    (∀ b, from_ossia_value cv false src (.boolVal b)
        = .boolVal (cv.toBoolV src)) := by
  refine ⟨?_, rfl, fun x y => rfl, fun x y z => rfl, fun x y z w => rfl,
    fun x => rfl, fun x => rfl, fun s => rfl, fun b => rfl⟩
  unfold from_ossia_value
  rw [if_pos rfl]

end Oscr
